import Mathlib

/-!
Shallow embedding of the bag-of-words / TF-IDF vectorization pipeline used by
the notebooks in this repository.  The notebooks delegate the pipeline to an
external library (`CountVectorizer`, `TfidfTransformer`), so the pipeline
itself is modelled from the specification and validated against the matrices
and vocabularies recorded in the notebook outputs.
-/

namespace BagOfWords

/-- Modelled from the spec: a word character is an alphanumeric character or
an underscore (the default token pattern of the vectorizer, which is not part
of the repository sources). -/
def isWordChar (c : Char) : Bool :=
  c.isAlphanum || c == '_'

/-- Modelled from the spec: left-to-right scanner that accumulates the current
run of word characters in `acc` (reversed) and emits each run when it ends.
This is the operational form of the tokenizer, mirroring a regex engine
scanning the document once. -/
def runsAux (acc : List Char) : List Char → List (List Char)
  | [] => if acc.isEmpty then [] else [acc.reverse]
  | c :: cs =>
    if isWordChar c then runsAux (c :: acc) cs
    else if acc.isEmpty then runsAux [] cs
    else acc.reverse :: runsAux [] cs

/-- Modelled from the spec: tokens of a document are the maximal runs of two
or more word characters of the lowercased document, in order of occurrence. -/
def tokenize (d : String) : List String :=
  ((runsAux [] (d.data.map Char.toLower)).filter (fun r => 2 ≤ r.length)).map
    (fun r => String.mk r)

/-- Declarative form following the spec wording: the maximal runs of word
characters, each run taken as far as it extends (`takeWhile`), with the rest
of the input resuming after the run (`dropWhile`). -/
def maximalRuns : List Char → List (List Char)
  | [] => []
  | c :: cs =>
    if isWordChar c then
      (c :: cs.takeWhile isWordChar) :: maximalRuns (cs.dropWhile isWordChar)
    else maximalRuns cs
termination_by l => l.length
decreasing_by
  · exact Nat.lt_succ_of_le (List.dropWhile_suffix isWordChar).sublist.length_le
  · simp

/-- Declarative tokens following the spec wording: case-fold the document,
take the maximal runs of word characters, keep only runs of length at least
two. -/
def specTokens (d : String) : List String :=
  ((maximalRuns (d.data.map Char.toLower)).filter (fun r => 2 ≤ r.length)).map
    (fun r => String.mk r)

/-- All tokens of a corpus, in document order then occurrence order. -/
def allTokens (corpus : List String) : List String :=
  corpus.flatMap tokenize

/-- Lexicographic order on token strings by code point, the order used to
assign column indices. -/
def vocabLe (s t : String) : Prop :=
  s.data ≤ t.data

instance : DecidableRel vocabLe :=
  fun s t => inferInstanceAs (Decidable (s.data ≤ t.data))

instance : IsTotal String vocabLe :=
  ⟨fun a b => total_of (· ≤ ·) a.data b.data⟩

instance : IsTrans String vocabLe :=
  ⟨fun _ _ _ h₁ h₂ => le_trans h₁ h₂⟩

instance : IsAntisymm String vocabLe :=
  ⟨fun _ _ h₁ h₂ => String.toList_inj.mp (le_antisymm h₁ h₂)⟩

/-- Modelled from the spec: `fit` collects the distinct tokens of the corpus
and assigns column indices in ascending lexicographic order; the resulting
list of feature names (position = column index) is the frozen Vocabulary. -/
def fitVocab (corpus : List String) : List String :=
  List.insertionSort vocabLe (allTokens corpus).dedup

/-- Modelled from the spec: one row of the document-term matrix.  Column `j`
holds the number of occurrences of the `j`-th vocabulary term among the
document's tokens; with the `bin` flag the count is capped at 1.  Tokens
absent from the vocabulary contribute to no column, and unknown tokens can
never make the (total) function fail. -/
def transformRow (bin : Bool) (vocab : List String) (d : String) : List Nat :=
  vocab.map (fun t =>
    let c := (tokenize d).count t
    if bin then min c 1 else c)

/-- Modelled from the spec: `transform` maps each document of the input corpus
to its count row under a frozen vocabulary, in input order. -/
def transform (bin : Bool) (vocab : List String) (docs : List String) :
    List (List Nat) :=
  docs.map (transformRow bin vocab)

/-- Join a window of unigrams with a single separator character. -/
def sepJoin : List String → String
  | [] => ""
  | [t] => t
  | t :: ts => t ++ " " ++ sepJoin ts

/-- Declarative form following the spec wording: one bigram for every pair of
consecutive unigrams, the two unigrams concatenated with a single
separator. -/
def adjacentBigrams : List String → List String
  | a :: b :: rest => (a ++ " " ++ b) :: adjacentBigrams (b :: rest)
  | _ => []

/-- Modelled from the spec: all windows of `n` consecutive unigrams, each
joined with a single separator, in order of their start position. -/
def windowsJoin (n : Nat) : List String → List String
  | [] => []
  | t :: ts =>
    if ts.length + 1 < n then []
    else if n = 0 then []
    else sepJoin ((t :: ts).take n) :: windowsJoin n ts

/-- Modelled from the spec: the analyzer for an n-gram range `(minN, maxN)`
emits, for every `n` in the range, every window of `n` consecutive unigrams
of the document. -/
def analyze (minN maxN : Nat) (d : String) : List String :=
  (List.range' minN (maxN + 1 - minN)).flatMap (fun n => windowsJoin n (tokenize d))

/-- Document frequency of a term in a corpus: the number of documents whose
token list contains the term. -/
def docFreq (corpus : List String) (t : String) : Nat :=
  (corpus.filter (fun d => t ∈ tokenize d)).length

/-- Document frequency of column `j` read off a count matrix: the number of
rows with a positive count in column `j`. -/
def colDF (m : List (List Nat)) (j : Nat) : Nat :=
  (m.filter (fun row => 0 < row.getD j 0)).length

/-- Modelled from the spec: the inverse-document-frequency weight of a column
with document frequency `df` over `n` documents; with smoothing it is
`ln((1 + n) / (1 + df)) + 1`, without it is `ln(n / df) + 1`. -/
noncomputable def idfOf (smooth : Bool) (n df : Nat) : ℝ :=
  if smooth then Real.log ((1 + (n : ℝ)) / (1 + (df : ℝ))) + 1
  else Real.log ((n : ℝ) / (df : ℝ)) + 1

/-- Modelled from the spec: the per-column IDF vector computed at fit time
from a count matrix with `cols` columns. -/
noncomputable def idfVector (smooth : Bool) (cols : Nat) (m : List (List Nat)) :
    List ℝ :=
  (List.range cols).map (fun j => idfOf smooth m.length (colDF m j))

/-- Modelled from the spec: entrywise weighting of a count row by the IDF
vector, `weight(i, j) = count(i, j) * idf(j)`. -/
noncomputable def weightRow (idfs : List ℝ) (row : List Nat) : List ℝ :=
  (row.zip idfs).map (fun p => (p.1 : ℝ) * p.2)

/-- Euclidean norm of a row. -/
noncomputable def l2norm (v : List ℝ) : ℝ :=
  Real.sqrt ((v.map (fun x => x ^ 2)).sum)

/-- Modelled from the spec: L2 row normalization; a row of norm zero is left
unchanged, every other row is divided by its Euclidean norm. -/
noncomputable def normalizeL2 (v : List ℝ) : List ℝ :=
  if l2norm v = 0 then v else v.map (fun x => x / l2norm v)

/-- Modelled from the spec: the full TF-IDF pipeline with default settings
(smoothing and L2 normalization on): fit the vocabulary, count, weight each
row by the IDF vector and normalize it. -/
noncomputable def tfidfMatrix (corpus : List String) : List (List ℝ) :=
  (transform false (fitVocab corpus) corpus).map (fun row =>
    normalizeL2 (weightRow
      (idfVector true (fitVocab corpus).length
        (transform false (fitVocab corpus) corpus)) row))

/-- The example corpus of the text-representation notebook. -/
def corpus4 : List String :=
  ["This is the first document.",
   "This is the second second document.",
   "And the third one. Yes, yes, yes this",
   "Is this the first document?"]

end BagOfWords

namespace BagOfWords

/-- Helper: a count row ignores tokens outside the vocabulary, so it can be
computed from the document's token list with the unknown tokens removed. -/
theorem transformRow_filter (vocab : List String) (d : String) :
    transformRow false vocab d =
      vocab.map (fun t => ((tokenize d).filter (fun s => s ∈ vocab)).count t) := by
  unfold transformRow
  apply List.map_congr_left
  intro t ht
  simp only [Bool.false_eq_true, if_false]
  exact (List.count_filter (by simpa using ht)).symm

/-- Helper: the `getD` of a mapped list at an index inside the list. -/
theorem getD_map_of_lt {α β : Type} (f : α → β) (l : List α) (j : Nat)
    (dA : α) (dB : β) (h : j < l.length) :
    (l.map f).getD j dB = f (l.getD j dA) := by
  rw [List.getD_eq_getElem?_getD, List.getElem?_map, List.getElem?_eq_getElem h,
    List.getD_eq_getElem?_getD, List.getElem?_eq_getElem h]
  rfl

/-- C1: with default settings, fitting on the four-document example corpus
yields the ten-term sorted vocabulary recorded in the notebook, and the
transformed matrix has exactly the recorded counts; in particular row 1 has
count 1 at the columns of document, first, is, the, this and 0 elsewhere,
and row 2 has count 2 at the column of "second". -/
theorem count_vectorizer_example :
    fitVocab corpus4 =
      ["and", "document", "first", "is", "one", "second", "the", "third",
       "this", "yes"]
      ∧ transform false (fitVocab corpus4) corpus4 =
        [[0, 1, 1, 1, 0, 0, 1, 0, 1, 0],
         [0, 1, 0, 1, 0, 2, 1, 0, 1, 0],
         [1, 0, 0, 0, 1, 0, 1, 1, 1, 3],
         [0, 1, 1, 1, 0, 0, 1, 0, 1, 0]] := by
  exact ⟨by decide, by decide⟩

/-- C2: `transform` is a total function for every frozen vocabulary and
document — tokens outside the vocabulary are silently dropped: the row equals
the row computed after erasing every unknown token.  On the example corpus
vocabulary, the document "this is my second, yes" maps to the recorded row
with the unseen token "my" contributing nothing. -/
theorem transform_unknown_tokens_dropped :
    (∀ (vocab : List String) (d : String),
        transformRow false vocab d =
          vocab.map (fun t => ((tokenize d).filter (fun s => s ∈ vocab)).count t))
      ∧ transform false (fitVocab corpus4) ["this is my second, yes"] =
        [[0, 0, 0, 1, 0, 1, 0, 0, 1, 1]] := by
  exact ⟨transformRow_filter, by decide⟩

/-- C3: the matrix produced by `transform` has one row per input document and
one column per vocabulary term frozen at fit time. -/
theorem dtm_shape (trainC inputD : List String) (_hfit : fitVocab trainC ≠ []) :
    (transform false (fitVocab trainC) inputD).length = inputD.length
      ∧ ∀ row ∈ transform false (fitVocab trainC) inputD,
          row.length = (fitVocab trainC).length := by
  constructor
  · exact List.length_map inputD (transformRow false (fitVocab trainC))
  · intro row hrow
    obtain ⟨d, _, rfl⟩ := List.mem_map.mp hrow
    exact List.length_map (fitVocab trainC) _

/-- Witness for C3 at the example corpus. -/
theorem dtm_shape_witness :
    fitVocab corpus4 ≠ [] ∧
      ((transform false (fitVocab corpus4) corpus4).length = corpus4.length
        ∧ ∀ row ∈ transform false (fitVocab corpus4) corpus4,
            row.length = (fitVocab corpus4).length) :=
  ⟨by decide, dtm_shape corpus4 corpus4 (by decide)⟩

/-- C4: `fit` assigns column indices in ascending lexicographic token order:
the vocabulary is sorted, has no duplicate, contains exactly the corpus
tokens, and it is independent of the encounter order — permuting the token
stream or the corpus leaves the vocabulary (hence the token-to-index
mapping) unchanged, so re-fitting an identical corpus reproduces it. -/
theorem fit_sorted_deterministic :
    (∀ corpus : List String,
        List.Sorted vocabLe (fitVocab corpus) ∧ (fitVocab corpus).Nodup
          ∧ ∀ t, t ∈ fitVocab corpus ↔ t ∈ allTokens corpus)
      ∧ (∀ lA lB : List String, lA.Perm lB →
          List.insertionSort vocabLe lA.dedup = List.insertionSort vocabLe lB.dedup)
      ∧ ∀ corpusA corpusB : List String, corpusA.Perm corpusB →
          fitVocab corpusA = fitVocab corpusB := by
  have key : ∀ lA lB : List String, lA.Perm lB →
      List.insertionSort vocabLe lA.dedup = List.insertionSort vocabLe lB.dedup := by
    intro lA lB h
    refine List.eq_of_perm_of_sorted ?_ (List.sorted_insertionSort vocabLe lA.dedup)
      (List.sorted_insertionSort vocabLe lB.dedup)
    exact ((List.perm_insertionSort vocabLe lA.dedup).trans h.dedup).trans
      (List.perm_insertionSort vocabLe lB.dedup).symm
  refine ⟨fun corpus => ⟨List.sorted_insertionSort vocabLe _, ?_, fun t => ?_⟩, key, ?_⟩
  · exact ((List.perm_insertionSort vocabLe _).nodup_iff).mpr (List.nodup_dedup _)
  · rw [fitVocab, List.mem_insertionSort, List.mem_dedup]
  · intro corpusA corpusB h
    exact key _ _ (h.flatMap_right tokenize)

/-- Witness for C4: reversing the example corpus reproduces the vocabulary. -/
theorem fit_sorted_deterministic_witness :
    corpus4.Perm corpus4.reverse ∧ fitVocab corpus4 = fitVocab corpus4.reverse :=
  ⟨by decide, fit_sorted_deterministic.2.2 corpus4 corpus4.reverse (by decide)⟩

/-- C7: with the binary flag set every cell of a transformed row is 0 or 1,
whatever the raw occurrence count; the binary matrix of the example corpus is
the one recorded in the notebook (note column "second" of row 2 and column
"yes" of row 3 are capped at 1). -/
theorem binary_mode_cells :
    (∀ (vocab : List String) (d : String) (x : Nat),
        x ∈ transformRow true vocab d → x = 0 ∨ x = 1)
      ∧ transform true (fitVocab corpus4) corpus4 =
        [[0, 1, 1, 1, 0, 0, 1, 0, 1, 0],
         [0, 1, 0, 1, 0, 1, 1, 0, 1, 0],
         [1, 0, 0, 0, 1, 0, 1, 1, 1, 1],
         [0, 1, 1, 1, 0, 0, 1, 0, 1, 0]] := by
  constructor
  · intro vocab d x hx
    obtain ⟨t, _, rfl⟩ := List.mem_map.mp hx
    simp only [if_true]
    omega
  · decide

/-- Witness for C7 at a repeated term of the example corpus. -/
theorem binary_mode_cells_witness :
    1 ∈ transformRow true (fitVocab corpus4) "This is the second second document."
      ∧ (1 = 0 ∨ 1 = 1) :=
  ⟨by decide,
    binary_mode_cells.1 (fitVocab corpus4)
      "This is the second second document." 1 (by decide)⟩

/-- C10: two documents whose in-vocabulary token multisets agree are encoded
as equal rows, and in the example corpus documents 1 and 4 (differing in
order, case and punctuation only) have equal rows. -/
theorem bag_of_words_invariance :
    (∀ (vocab : List String) (dA dB : String),
        ((tokenize dA).filter (fun s => s ∈ vocab)).Perm
            ((tokenize dB).filter (fun s => s ∈ vocab)) →
          transformRow false vocab dA = transformRow false vocab dB)
      ∧ (transform false (fitVocab corpus4) corpus4).getD 0 [] =
          (transform false (fitVocab corpus4) corpus4).getD 3 [] := by
  constructor
  · intro vocab dA dB hperm
    rw [transformRow_filter vocab dA, transformRow_filter vocab dB]
    exact List.map_congr_left (fun t _ => hperm.count_eq t)
  · decide

/-- Witness for C10 on documents 1 and 4 of the example corpus. -/
theorem bag_of_words_invariance_witness :
    ((tokenize "This is the first document.").filter
        (fun s => s ∈ fitVocab corpus4)).Perm
      ((tokenize "Is this the first document?").filter
        (fun s => s ∈ fitVocab corpus4))
      ∧ transformRow false (fitVocab corpus4) "This is the first document." =
          transformRow false (fitVocab corpus4) "Is this the first document?" :=
  ⟨by decide,
    bag_of_words_invariance.1 (fitVocab corpus4)
      "This is the first document." "Is this the first document?" (by decide)⟩

/-- Helper: the scanner emits exactly the maximal runs: with a pending
accumulator it first closes the run the accumulator started. -/
theorem runsAux_eq_maximalRuns (l : List Char) : ∀ acc : List Char,
    runsAux acc l =
      if acc.isEmpty then maximalRuns l
      else (acc.reverse ++ l.takeWhile isWordChar) ::
        maximalRuns (l.dropWhile isWordChar) := by
  induction l with
  | nil =>
    intro acc
    cases acc <;> simp [runsAux, maximalRuns]
  | cons c cs ih =>
    intro acc
    by_cases hw : isWordChar c
    · have h2 := ih (c :: acc)
      cases acc with
      | nil =>
        simp only [runsAux, hw, if_true, List.isEmpty_cons, List.isEmpty_nil] at h2 ⊢
        rw [h2]
        simp [maximalRuns, hw]
      | cons a as =>
        simp only [runsAux, hw, if_true, List.isEmpty_cons] at h2 ⊢
        rw [h2]
        simp [hw, List.takeWhile_cons, List.dropWhile_cons]
    · cases acc with
      | nil =>
        simp only [runsAux, hw, if_false, List.isEmpty_nil, if_true,
          Bool.false_eq_true]
        rw [ih []]
        simp [maximalRuns, hw]
      | cons a as =>
        simp only [runsAux, hw, Bool.false_eq_true, if_false, List.isEmpty_cons]
        rw [ih []]
        simp [maximalRuns, hw, List.takeWhile_cons, List.dropWhile_cons]

/-- Helper: every run the scanner emits consists of word characters, provided
the pending accumulator does. -/
theorem runsAux_wordChars (l : List Char) : ∀ acc : List Char,
    (∀ c ∈ acc, isWordChar c = true) →
    ∀ r ∈ runsAux acc l, ∀ c ∈ r, isWordChar c = true := by
  induction l with
  | nil =>
    intro acc hacc r hr c hc
    cases acc with
    | nil => simp [runsAux] at hr
    | cons a as =>
      simp only [runsAux, List.isEmpty_cons, Bool.false_eq_true, if_false,
        List.mem_singleton] at hr
      subst hr
      exact hacc c (List.mem_reverse.mp hc)
  | cons x xs ih =>
    intro acc hacc r hr c hc
    by_cases hw : isWordChar x
    · refine ih (x :: acc) ?_ r (by simpa [runsAux, hw] using hr) c hc
      intro y hy
      rcases List.mem_cons.mp hy with h | h
      · exact h ▸ hw
      · exact hacc y h
    · cases acc with
      | nil =>
        exact ih [] (by simp) r (by simpa [runsAux, hw] using hr) c hc
      | cons a as =>
        have hr2 : r = (a :: as).reverse ∨ r ∈ runsAux [] xs := by
          simpa [runsAux, hw] using hr
        rcases hr2 with h | h
        · subst h
          exact hacc c (List.mem_reverse.mp hc)
        · exact ih [] (by simp) r h c hc

/-- C8: under the default configuration the extracted tokens are exactly the
maximal runs of word characters of the case-folded document that have length
at least two (the declarative `specTokens`); consequently every token has at
least two characters, all of them word characters, so single-character runs
and punctuation yield no token. -/
theorem default_tokenization (d : String) :
    tokenize d = specTokens d
      ∧ ∀ t ∈ tokenize d, 2 ≤ t.length ∧ ∀ c ∈ t.data, isWordChar c = true := by
  constructor
  · unfold tokenize specTokens
    rw [show runsAux [] (d.data.map Char.toLower) =
        maximalRuns (d.data.map Char.toLower) by
      simpa using runsAux_eq_maximalRuns (d.data.map Char.toLower) []]
  · intro t ht
    obtain ⟨r, hr, rfl⟩ := List.mem_map.mp ht
    have hrf := List.mem_filter.mp hr
    refine ⟨by exact_mod_cast of_decide_eq_true hrf.2, ?_⟩
    intro c hc
    exact runsAux_wordChars (d.data.map Char.toLower) [] (by simp) r hrf.1 c hc

/-- Witness for C8 at a concrete document with a one-character run and
punctuation. -/
theorem default_tokenization_witness :
    "hi" ∈ tokenize "Hi! a"
      ∧ (2 ≤ ("hi" : String).length
          ∧ ∀ c ∈ ("hi" : String).data, isWordChar c = true) :=
  ⟨by decide, (default_tokenization "Hi! a").2 "hi" (by decide)⟩

/-- Helper: windows of length one are the unigrams themselves. -/
theorem windowsJoin_one (l : List String) : windowsJoin 1 l = l := by
  induction l with
  | nil => rfl
  | cons t ts ih => simp [windowsJoin, sepJoin, ih]

/-- Helper: windows of length two are exactly the adjacent bigrams. -/
theorem windowsJoin_two (l : List String) : windowsJoin 2 l = adjacentBigrams l := by
  induction l with
  | nil => rfl
  | cons t ts ih =>
    cases ts with
    | nil => rfl
    | cons b rest =>
      rw [show windowsJoin 2 (t :: b :: rest) =
          sepJoin ((t :: b :: rest).take 2) :: windowsJoin 2 (b :: rest) by
        rw [windowsJoin,
          if_neg (by simp only [List.length_cons]; omega), if_neg (by omega)]]
      rw [ih]
      rfl

/-- Helper: there is exactly one adjacent bigram per pair of consecutive
unigrams. -/
theorem adjacentBigrams_length (l : List String) :
    (adjacentBigrams l).length = l.length - 1 := by
  induction l with
  | nil => rfl
  | cons a as ih =>
    cases as with
    | nil => rfl
    | cons b rest =>
      simp only [adjacentBigrams, List.length_cons] at ih ⊢
      omega

/-- C9: the analyzer with n-gram range (1,1) yields exactly the unigrams, and
with range (1,2) it yields the unigrams followed by exactly one bigram per
pair of consecutive unigrams, each formed by concatenating the two with a
single separator. -/
theorem ngram_range_features (d : String) :
    analyze 1 1 d = tokenize d
      ∧ analyze 1 2 d = tokenize d ++ adjacentBigrams (tokenize d)
      ∧ (adjacentBigrams (tokenize d)).length = (tokenize d).length - 1 := by
  refine ⟨?_, ?_, adjacentBigrams_length (tokenize d)⟩
  · show (List.range' 1 1).flatMap (fun n => windowsJoin n (tokenize d)) = _
    simp [List.range', windowsJoin_one]
  · show (List.range' 1 2).flatMap (fun n => windowsJoin n (tokenize d)) = _
    simp [List.range', windowsJoin_one, windowsJoin_two]

/-- Helper: without the binary flag a row is the plain count map. -/
theorem transformRow_false (vocab : List String) (d : String) :
    transformRow false vocab d = vocab.map (fun t => (tokenize d).count t) := rfl

/-- Helper: the `getD` of a list at an index inside the list is a member. -/
theorem getD_mem_of_lt {α : Type} (l : List α) (j : Nat) (d : α)
    (h : j < l.length) : l.getD j d ∈ l := by
  rw [List.getD_eq_getElem?_getD, List.getElem?_eq_getElem h]
  exact List.getElem_mem h

/-- Helper: the IDF vector has one entry per column. -/
theorem idfVector_length (smooth : Bool) (cols : Nat) (m : List (List Nat)) :
    (idfVector smooth cols m).length = cols := by
  unfold idfVector
  rw [List.length_map, List.length_range]

/-- Helper: entry `j` of the IDF vector is the IDF of column `j`. -/
theorem idfVector_getD (smooth : Bool) (cols : Nat) (m : List (List Nat))
    (j : Nat) (h : j < cols) :
    (idfVector smooth cols m).getD j 0 = idfOf smooth m.length (colDF m j) := by
  unfold idfVector
  rw [List.getD_eq_getElem?_getD, List.getElem?_map, List.getElem?_range h]
  rfl

/-- Helper: the document frequency read off the count matrix of a corpus
agrees with the document frequency counted on the corpus itself. -/
theorem colDF_transform (corpus vocab : List String) (j : Nat)
    (h : j < vocab.length) :
    colDF (transform false vocab corpus) j = docFreq corpus (vocab.getD j "") := by
  unfold colDF transform docFreq
  rw [List.filter_map, List.length_map]
  congr 1
  apply List.filter_congr
  intro d _
  show decide (0 < (transformRow false vocab d).getD j 0) =
    decide (vocab.getD j "" ∈ tokenize d)
  rw [transformRow_false,
    getD_map_of_lt (fun t => (tokenize d).count t) vocab j "" 0 h]
  exact decide_eq_decide.mpr List.count_pos_iff

/-- Helper: with smoothing the IDF of a column whose document frequency does
not exceed the document count is strictly positive. -/
theorem idfOf_true_pos {n df : Nat} (h : df ≤ n) : 0 < idfOf true n df := by
  unfold idfOf
  rw [if_pos rfl]
  have hdf : (df : ℝ) ≤ (n : ℝ) := Nat.cast_le.mpr h
  have h1 : (1 : ℝ) ≤ (1 + (n : ℝ)) / (1 + (df : ℝ)) := by
    rw [le_div_iff₀ (by positivity)]
    linarith
  have h2 := Real.log_nonneg h1
  linarith

/-- Helper: a sum of squares is nonnegative. -/
theorem sum_map_sq_nonneg (v : List ℝ) : 0 ≤ (v.map (fun x => x ^ 2)).sum := by
  apply List.sum_nonneg
  intro x hx
  obtain ⟨y, _, rfl⟩ := List.mem_map.mp hx
  positivity

/-- Helper: the Euclidean norm is nonnegative. -/
theorem l2norm_nonneg (v : List ℝ) : 0 ≤ l2norm v := Real.sqrt_nonneg _

/-- Helper: a row with a nonzero entry has positive Euclidean norm. -/
theorem l2norm_pos {v : List ℝ} {x : ℝ} (hx : x ∈ v) (hx0 : x ≠ 0) :
    0 < l2norm v := by
  unfold l2norm
  rw [Real.sqrt_pos]
  have h1 : x ^ 2 ≤ (v.map (fun y => y ^ 2)).sum := by
    apply List.single_le_sum
    · intro y hy
      obtain ⟨z, _, rfl⟩ := List.mem_map.mp hy
      positivity
    · exact List.mem_map_of_mem (fun y => y ^ 2) hx
  have h2 : 0 < x ^ 2 := pow_two_pos_of_ne_zero hx0
  linarith

/-- Helper: dividing a sum of squares entrywise. -/
theorem sum_map_sq_div (v : List ℝ) (c : ℝ) :
    (v.map (fun x => x ^ 2 / c)).sum = (v.map (fun x => x ^ 2)).sum / c := by
  induction v with
  | nil => simp
  | cons a as ih => simp [ih, add_div]

/-- Helper: dividing a row of positive Euclidean norm by its norm yields a
row of norm one. -/
theorem l2norm_normalized {v : List ℝ} (h : l2norm v ≠ 0) :
    l2norm (v.map (fun x => x / l2norm v)) = 1 := by
  have hS : 0 ≤ (v.map (fun x => x ^ 2)).sum := sum_map_sq_nonneg v
  have hsq : l2norm v ^ 2 = (v.map (fun x => x ^ 2)).sum := Real.sq_sqrt hS
  have hSne : (v.map (fun x => x ^ 2)).sum ≠ 0 := by
    intro h0
    apply h
    unfold l2norm
    rw [h0, Real.sqrt_zero]
  show Real.sqrt (((v.map (fun x => x / l2norm v)).map (fun x => x ^ 2)).sum) = 1
  rw [List.map_map]
  have hfun : ((fun x => x ^ 2) ∘ fun x => x / l2norm v) =
      fun x => x ^ 2 / l2norm v ^ 2 := by
    funext x
    simp [div_pow]
  rw [hfun, sum_map_sq_div, hsq, div_self hSne, Real.sqrt_one]

/-- Helper: the all-zero row has Euclidean norm zero. -/
theorem l2norm_replicate_zero (n : Nat) :
    l2norm (List.replicate n (0 : ℝ)) = 0 := by
  unfold l2norm
  rw [List.map_replicate]
  simp [List.sum_replicate]

/-- Helper: entry `j` of a weighted row is the count times the IDF. -/
theorem weightRow_getD (idfs : List ℝ) (row : List Nat) (j : Nat)
    (h1 : j < row.length) (h2 : j < idfs.length) :
    (weightRow idfs row).getD j 0 = (row.getD j 0 : ℝ) * idfs.getD j 0 := by
  unfold weightRow
  have hz : j < (row.zip idfs).length := by
    rw [List.length_zip]
    omega
  rw [List.getD_eq_getElem?_getD, List.getElem?_map, List.getElem?_eq_getElem hz,
    List.getD_eq_getElem?_getD, List.getElem?_eq_getElem h1,
    List.getD_eq_getElem?_getD, List.getElem?_eq_getElem h2]
  show ((row.zip idfs)[j].1 : ℝ) * (row.zip idfs)[j].2 = _
  rw [List.getElem_zip]
  rfl

/-- Helper: a weighted row has one entry per vocabulary column. -/
theorem weightRow_length (idfs : List ℝ) (row : List Nat) :
    (weightRow idfs row).length = min row.length idfs.length := by
  unfold weightRow
  rw [List.length_map, List.length_zip]

/-- C5: with smoothing (the default), the IDF weight of column `j` of the
matrix fit on a corpus equals `ln((1 + n_docs) / (1 + df(j))) + 1`, where
`n_docs` is the number of documents fit on and `df(j)` is the number of those
documents containing the `j`-th vocabulary term. -/
theorem idf_smoothed_formula (corpus : List String) (j : Nat)
    (h : j < (fitVocab corpus).length) :
    (idfVector true (fitVocab corpus).length
        (transform false (fitVocab corpus) corpus)).getD j 0 =
      Real.log ((1 + (corpus.length : ℝ))
        / (1 + (docFreq corpus ((fitVocab corpus).getD j "") : ℝ))) + 1 := by
  rw [idfVector_getD true _ _ j h]
  unfold idfOf
  rw [if_pos rfl,
    show (transform false (fitVocab corpus) corpus).length = corpus.length from
      List.length_map corpus _,
    colDF_transform corpus (fitVocab corpus) j h]

/-- Witness for C5 at column 5 ("second") of the example corpus. -/
theorem idf_smoothed_formula_witness :
    5 < (fitVocab corpus4).length
      ∧ (idfVector true (fitVocab corpus4).length
          (transform false (fitVocab corpus4) corpus4)).getD 5 0 =
        Real.log ((1 + (corpus4.length : ℝ))
          / (1 + (docFreq corpus4 ((fitVocab corpus4).getD 5 "") : ℝ))) + 1 :=
  ⟨by decide, idf_smoothed_formula corpus4 5 (by decide)⟩

/-- C6: with L2 normalization (the default), the TF-IDF row of a document
with at least one recognized term is the IDF-weighted count row divided by
its Euclidean norm and therefore has unit L2 norm, while the row of a
document with no recognized term is the all-zero vector. -/
theorem tfidf_l2_normalization (corpus : List String) (i : Nat)
    (h : i < corpus.length) :
    ((∃ t ∈ fitVocab corpus, t ∈ tokenize (corpus.getD i "")) →
        (tfidfMatrix corpus).getD i [] =
          (weightRow (idfVector true (fitVocab corpus).length
                (transform false (fitVocab corpus) corpus))
              (transformRow false (fitVocab corpus) (corpus.getD i ""))).map
            (fun x => x /
              l2norm (weightRow (idfVector true (fitVocab corpus).length
                  (transform false (fitVocab corpus) corpus))
                (transformRow false (fitVocab corpus) (corpus.getD i ""))))
          ∧ l2norm ((tfidfMatrix corpus).getD i []) = 1)
      ∧ ((∀ t ∈ fitVocab corpus, t ∉ tokenize (corpus.getD i "")) →
          (tfidfMatrix corpus).getD i [] =
            List.replicate (fitVocab corpus).length (0 : ℝ)) := by
  have hlen : i < (transform false (fitVocab corpus) corpus).length := by
    rw [show (transform false (fitVocab corpus) corpus).length = corpus.length
      from List.length_map corpus _]
    exact h
  have hmat : (tfidfMatrix corpus).getD i [] =
      normalizeL2 (weightRow (idfVector true (fitVocab corpus).length
          (transform false (fitVocab corpus) corpus))
        (transformRow false (fitVocab corpus) (corpus.getD i ""))) := by
    unfold tfidfMatrix
    rw [getD_map_of_lt _ _ i [] [] hlen]
    show normalizeL2 (weightRow _ ((corpus.map
      (transformRow false (fitVocab corpus))).getD i [])) = _
    rw [getD_map_of_lt (transformRow false (fitVocab corpus)) corpus i "" [] h]
  constructor
  · rintro ⟨t, htv, htd⟩
    obtain ⟨j, hj, hjt⟩ := List.mem_iff_getElem.mp htv
    have hjd : (fitVocab corpus).getD j "" = t := by
      rw [List.getD_eq_getElem?_getD, List.getElem?_eq_getElem hj]
      exact hjt
    have hrowlen : (transformRow false (fitVocab corpus)
        (corpus.getD i "")).length = (fitVocab corpus).length :=
      List.length_map _ _
    have hidflen : (idfVector true (fitVocab corpus).length
        (transform false (fitVocab corpus) corpus)).length =
        (fitVocab corpus).length := idfVector_length _ _ _
    have hcount : 0 < (transformRow false (fitVocab corpus)
        (corpus.getD i "")).getD j 0 := by
      rw [transformRow_false,
        getD_map_of_lt (fun s => (tokenize (corpus.getD i "")).count s)
          (fitVocab corpus) j "" 0 hj, hjd]
      exact List.count_pos_iff.mpr htd
    have hidf : 0 < (idfVector true (fitVocab corpus).length
        (transform false (fitVocab corpus) corpus)).getD j 0 := by
      rw [idfVector_getD true _ _ j hj]
      exact idfOf_true_pos (List.length_filter_le _ _)
    have hentry : 0 < (weightRow (idfVector true (fitVocab corpus).length
        (transform false (fitVocab corpus) corpus))
        (transformRow false (fitVocab corpus) (corpus.getD i ""))).getD j 0 := by
      rw [weightRow_getD _ _ j (by omega) (by omega)]
      exact mul_pos (by exact_mod_cast hcount) hidf
    have hmem : (weightRow (idfVector true (fitVocab corpus).length
        (transform false (fitVocab corpus) corpus))
        (transformRow false (fitVocab corpus) (corpus.getD i ""))).getD j 0 ∈
        weightRow (idfVector true (fitVocab corpus).length
          (transform false (fitVocab corpus) corpus))
          (transformRow false (fitVocab corpus) (corpus.getD i "")) := by
      apply getD_mem_of_lt
      rw [weightRow_length]
      omega
    have hnorm : l2norm (weightRow (idfVector true (fitVocab corpus).length
        (transform false (fitVocab corpus) corpus))
        (transformRow false (fitVocab corpus) (corpus.getD i ""))) ≠ 0 :=
      ne_of_gt (l2norm_pos hmem (ne_of_gt hentry))
    refine ⟨?_, ?_⟩
    · rw [hmat]
      unfold normalizeL2
      rw [if_neg hnorm]
    · rw [hmat]
      unfold normalizeL2
      rw [if_neg hnorm]
      exact l2norm_normalized hnorm
  · intro hall
    have hrow : transformRow false (fitVocab corpus) (corpus.getD i "") =
        List.replicate (fitVocab corpus).length 0 := by
      rw [transformRow_false]
      apply List.eq_replicate_iff.mpr
      refine ⟨List.length_map _ _, ?_⟩
      intro b hb
      obtain ⟨t, htv, rfl⟩ := List.mem_map.mp hb
      exact List.count_eq_zero.mpr (hall t htv)
    have hw : weightRow (idfVector true (fitVocab corpus).length
        (transform false (fitVocab corpus) corpus))
        (List.replicate (fitVocab corpus).length 0) =
        List.replicate (fitVocab corpus).length (0 : ℝ) := by
      apply List.eq_replicate_iff.mpr
      constructor
      · rw [weightRow_length, List.length_replicate, idfVector_length]
        exact min_self _
      · intro b hb
        obtain ⟨p, hp, rfl⟩ := List.mem_map.mp hb
        have h1 := (List.of_mem_zip hp).1
        have h10 : p.1 = 0 := List.eq_of_mem_replicate h1
        rw [h10]
        simp
    rw [hmat, hrow, hw]
    unfold normalizeL2
    rw [if_pos (l2norm_replicate_zero _)]

/-- Witness for C6 at document 1 of the example corpus. -/
theorem tfidf_l2_normalization_witness :
    0 < corpus4.length
      ∧ (∃ t ∈ fitVocab corpus4, t ∈ tokenize (corpus4.getD 0 ""))
      ∧ l2norm ((tfidfMatrix corpus4).getD 0 []) = 1 :=
  ⟨by decide, by decide,
    ((tfidf_l2_normalization corpus4 0 (by decide)).1 (by decide)).2⟩

end BagOfWords
